import Mathlib

/-!
Shallow embedding of `src/code_scheduling/fast_mod.cpp`.

The file benchmarks five variants of an array-modulo kernel.  Each C++
kernel reads `input[i]` (an `int`) and writes `output[i] = input[i] % ceil`
(or the compare-guarded form).  C++ `%` on `int` is the truncated-division
remainder, which is `Int.tmod`; `x % 0` is undefined behaviour, and an
out-of-bounds `std::vector` index is undefined behaviour, so the embedded
kernels return `Option` values with `none` marking undefined behaviour.
-/

namespace FastMod

/-- C++ `a % c` on `int`: truncated remainder, undefined for `c = 0`. -/
def cppMod (a c : Int) : Option Int :=
  if c = 0 then none else some (Int.tmod a c)

/-- `__builtin_expect(b, e)`: a branch-prediction hint; the value is
the first argument unchanged. -/
def expectHint (b : Bool) (_expected : Bool) : Bool := b

/-- The guarded element operation of `fastMod`
(line 113: `(input[i] >= ceil) ? input[i] % ceil : input[i]`). -/
def fastElem (x c : Int) : Option Int :=
  if x ≥ c then cppMod x c else some x

/-- The guarded element operation of `fastModHint` and `fastModHintUnroll`
(`__builtin_expect(input[i] >= ceil, 0) ? input[i] % ceil : input[i]`). -/
def fastHintElem (x c : Int) : Option Int :=
  if expectHint (decide (x ≥ c)) false then cppMod x c else some x

/-- `baseMod` kernel loop (lines 42-46): for each `i` in order,
`output[i] = input[i] % ceil`. -/
def baseMod : List Int → Int → Option (List Int)
  | [], _ => some []
  | x :: xs, c => do
    let y ← cppMod x c
    let ys ← baseMod xs c
    return y :: ys

/-- `unrollMod` kernel loop (lines 75-81): four elements per iteration,
`output[i+k] = input[i+k] % ceil` for `k = 0,1,2,3`; if fewer than four
elements remain in a non-empty tail the C++ loop indexes out of bounds,
which is undefined behaviour (`none`). -/
def unrollMod : List Int → Int → Option (List Int)
  | [], _ => some []
  | x0 :: x1 :: x2 :: x3 :: xs, c => do
    let y0 ← cppMod x0 c
    let y1 ← cppMod x1 c
    let y2 ← cppMod x2 c
    let y3 ← cppMod x3 c
    let ys ← unrollMod xs c
    return y0 :: y1 :: y2 :: y3 :: ys
  | _, _ => none

/-- `fastMod` kernel loop (lines 111-115): compare-guarded modulo. -/
def fastMod : List Int → Int → Option (List Int)
  | [], _ => some []
  | x :: xs, c => do
    let y ← fastElem x c
    let ys ← fastMod xs c
    return y :: ys

/-- `fastModHint` kernel loop (lines 145-149): compare-guarded modulo with
a branch-prediction hint. -/
def fastModHint : List Int → Int → Option (List Int)
  | [], _ => some []
  | x :: xs, c => do
    let y ← fastHintElem x c
    let ys ← fastModHint xs c
    return y :: ys

/-- `fastModHintUnroll` kernel loop (lines 178-190): four hinted guarded
elements per iteration; a non-empty tail shorter than four indexes out of
bounds (`none`). -/
def fastModHintUnroll : List Int → Int → Option (List Int)
  | [], _ => some []
  | x0 :: x1 :: x2 :: x3 :: xs, c => do
    let y0 ← fastHintElem x0 c
    let y1 ← fastHintElem x1 c
    let y2 ← fastHintElem x2 c
    let y3 ← fastHintElem x3 c
    let ys ← fastModHintUnroll xs c
    return y0 :: y1 :: y2 :: y3 :: ys
  | _, _ => none

/-- The sequence of array indices accessed by the unrolled loops
(`for (int i = 0; i < N; i += 4)` with body touching `i, i+1, i+2, i+3`,
lines 76-81 and 178-190), starting from loop counter `i`. -/
def unrollAccesses (i N : Nat) : List Nat :=
  if i < N then i :: (i + 1) :: (i + 2) :: (i + 3) :: unrollAccesses (i + 4) N
  else []
termination_by N - i
decreasing_by omega

/-- The inner `for (int j : {32, 128, 224})` of `custom_args`
(lines 11-16): one `ArgPair (i, j)` per ceiling. -/
def ceilGrid : List Nat := [32, 128, 224]

/-- The outer `for (int i = 1 << 4; i <= 1 << 10; i <<= 2)` of
`custom_args` (lines 11-16), as fuel-indexed iteration: while `i ≤ 1024`,
emit the three pairs for `i` and continue with `4 * i`.  Any fuel large
enough to exhaust the loop yields the loop's full trace. -/
def customArgsLoop : Nat → Nat → List (Nat × Nat)
  | 0, _ => []
  | fuel + 1, i =>
    if i ≤ 1024 then ceilGrid.map (fun j => (i, j)) ++ customArgsLoop fuel (4 * i)
    else []

/-- `custom_args` (lines 10-17): the argument pairs registered with each
benchmark, entering the loop at `i = 1 << 4 = 16`.  The loop quadruples
`i` each step, so fuel `8` is more than enough to drive it to completion. -/
def custom_args : List (Nat × Nat) := customArgsLoop 8 16

/-- The five `BENCHMARK(f)->Apply(custom_args)` registrations (lines 48,
84, 118, 152, 195): each variant's name, its kernel, and the argument
pairs it is invoked with. -/
def registrations :
    List (String × (List Int → Int → Option (List Int)) × List (Nat × Nat)) :=
  [("baseMod", baseMod, custom_args),
   ("unrollMod", unrollMod, custom_args),
   ("fastMod", fastMod, custom_args),
   ("fastModHint", fastModHint, custom_args),
   ("fastModHintUnroll", fastModHintUnroll, custom_args)]

/-- The observable state of one kernel invocation: the input vector, the
ceiling, and the output vector. -/
structure KernelState where
  input : List Int
  ceil : Int
  output : List Int
deriving DecidableEq

/-- `std::vector::operator[]` read: undefined behaviour out of bounds. -/
def vecRead (l : List Int) (i : Nat) : Option Int := l.get? i

/-- `std::vector::operator[]` write: undefined behaviour out of bounds. -/
def vecWrite (l : List Int) (i : Nat) (y : Int) : Option (List Int) :=
  if i < l.length then some (l.set i y) else none

/-- The `baseMod` loop (lines 42-46) acting on the whole kernel state:
at loop counter `i`, while `i < N`, write `output[i] = input[i] % ceil`.
Fuel-indexed; fuel at least `N - i + 1` suffices. -/
def baseModLoop : Nat → Nat → KernelState → Option KernelState
  | 0, _, _ => none
  | fuel + 1, i, s =>
    if i < s.input.length then do
      let x ← vecRead s.input i
      let y ← cppMod x s.ceil
      let out ← vecWrite s.output i y
      baseModLoop fuel (i + 1) { s with output := out }
    else some s

/-- The `fastMod` loop (lines 111-115) acting on the whole kernel state. -/
def fastModLoop : Nat → Nat → KernelState → Option KernelState
  | 0, _, _ => none
  | fuel + 1, i, s =>
    if i < s.input.length then do
      let x ← vecRead s.input i
      let y ← fastElem x s.ceil
      let out ← vecWrite s.output i y
      fastModLoop fuel (i + 1) { s with output := out }
    else some s

/-- The `fastModHint` loop (lines 145-149) acting on the whole state. -/
def fastModHintLoop : Nat → Nat → KernelState → Option KernelState
  | 0, _, _ => none
  | fuel + 1, i, s =>
    if i < s.input.length then do
      let x ← vecRead s.input i
      let y ← fastHintElem x s.ceil
      let out ← vecWrite s.output i y
      fastModHintLoop fuel (i + 1) { s with output := out }
    else some s

/-- The `unrollMod` loop (lines 75-81) acting on the whole kernel state:
at loop counter `i`, while `i < N`, write the four entries `i .. i+3`. -/
def unrollModLoop : Nat → Nat → KernelState → Option KernelState
  | 0, _, _ => none
  | fuel + 1, i, s =>
    if i < s.input.length then do
      let x0 ← vecRead s.input i
      let y0 ← cppMod x0 s.ceil
      let o0 ← vecWrite s.output i y0
      let x1 ← vecRead s.input (i + 1)
      let y1 ← cppMod x1 s.ceil
      let o1 ← vecWrite o0 (i + 1) y1
      let x2 ← vecRead s.input (i + 2)
      let y2 ← cppMod x2 s.ceil
      let o2 ← vecWrite o1 (i + 2) y2
      let x3 ← vecRead s.input (i + 3)
      let y3 ← cppMod x3 s.ceil
      let o3 ← vecWrite o2 (i + 3) y3
      unrollModLoop fuel (i + 4) { s with output := o3 }
    else some s

/-- The `fastModHintUnroll` loop (lines 178-190) acting on the state. -/
def fastModHintUnrollLoop : Nat → Nat → KernelState → Option KernelState
  | 0, _, _ => none
  | fuel + 1, i, s =>
    if i < s.input.length then do
      let x0 ← vecRead s.input i
      let y0 ← fastHintElem x0 s.ceil
      let o0 ← vecWrite s.output i y0
      let x1 ← vecRead s.input (i + 1)
      let y1 ← fastHintElem x1 s.ceil
      let o1 ← vecWrite o0 (i + 1) y1
      let x2 ← vecRead s.input (i + 2)
      let y2 ← fastHintElem x2 s.ceil
      let o2 ← vecWrite o1 (i + 2) y2
      let x3 ← vecRead s.input (i + 3)
      let y3 ← fastHintElem x3 s.ceil
      let o3 ← vecWrite o2 (i + 3) y3
      fastModHintUnrollLoop fuel (i + 4) { s with output := o3 }
    else some s

/-! ### Element-level lemmas -/

theorem cppMod_of_ne {c : Int} (hc : c ≠ 0) (x : Int) :
    cppMod x c = some (Int.tmod x c) := by
  simp [cppMod, hc]

theorem fastElem_eq_cppMod {x c : Int} (hx : 0 ≤ x) (hc : 0 < c) :
    fastElem x c = cppMod x c := by
  by_cases h : x ≥ c
  · simp [fastElem, h]
  · simp [fastElem, h, cppMod_of_ne hc.ne', Int.tmod_eq_of_lt hx (show x < c by omega)]

theorem fastHintElem_eq_fastElem (x c : Int) :
    fastHintElem x c = fastElem x c := by
  simp [fastHintElem, fastElem, expectHint]

theorem fastElem_some_of_lt {x c y : Int} (hxc : x < c)
    (h : fastElem x c = some y) : y = x := by
  rw [fastElem, if_neg (by omega)] at h
  exact (Option.some_inj.mp h).symm

theorem tmod_range {x c : Int} (hx : 0 ≤ x) (hc : 0 < c) :
    0 ≤ Int.tmod x c ∧ Int.tmod x c < c :=
  ⟨Int.tmod_nonneg c hx, Int.tmod_lt_of_pos x hc⟩

/-! ### Kernel-level lemmas: each kernel, on its defined domain, maps every
element to its truncated remainder. -/

theorem baseMod_of_ne {c : Int} (hc : c ≠ 0) :
    ∀ input : List Int, baseMod input c = some (input.map (fun x => Int.tmod x c))
  | [] => rfl
  | x :: xs => by
    simp [baseMod, cppMod_of_ne hc, baseMod_of_ne hc xs]

theorem fastMod_map {c : Int} (hc : 0 < c) :
    ∀ input : List Int, (∀ x ∈ input, 0 ≤ x) →
      fastMod input c = some (input.map (fun x => Int.tmod x c))
  | [], _ => rfl
  | x :: xs, hin => by
    have hx := hin x (List.mem_cons_self x xs)
    have ih := fastMod_map hc xs (fun y hy => hin y (List.mem_cons_of_mem x hy))
    simp [fastMod, fastElem_eq_cppMod hx hc, cppMod_of_ne hc.ne', ih]

theorem fastModHint_eq_fastMod : ∀ (input : List Int) (c : Int),
    fastModHint input c = fastMod input c
  | [], _ => rfl
  | x :: xs, c => by
    simp [fastModHint, fastMod, fastHintElem_eq_fastElem,
      fastModHint_eq_fastMod xs c]

theorem unrollMod_map {c : Int} (hc : c ≠ 0) :
    ∀ input : List Int, input.length % 4 = 0 →
      unrollMod input c = some (input.map (fun x => Int.tmod x c))
  | [], _ => rfl
  | [_], h => by simp at h
  | [_, _], h => by simp at h
  | [_, _, _], h => by simp at h
  | x0 :: x1 :: x2 :: x3 :: xs, h => by
    have ih := unrollMod_map hc xs (by simp at h; omega)
    simp [unrollMod, cppMod_of_ne hc, ih]

theorem fastModHintUnroll_map {c : Int} (hc : 0 < c) :
    ∀ input : List Int, (∀ x ∈ input, 0 ≤ x) → input.length % 4 = 0 →
      fastModHintUnroll input c = some (input.map (fun x => Int.tmod x c))
  | [], _, _ => rfl
  | [_], _, h => by simp at h
  | [_, _], _, h => by simp at h
  | [_, _, _], _, h => by simp at h
  | x0 :: x1 :: x2 :: x3 :: xs, hin, h => by
    have ih := fastModHintUnroll_map hc xs
      (fun y hy => hin y (by simp [hy])) (by simp at h; omega)
    simp [fastModHintUnroll, fastHintElem_eq_fastElem,
      fastElem_eq_cppMod (hin x0 (by simp)) hc,
      fastElem_eq_cppMod (hin x1 (by simp)) hc,
      fastElem_eq_cppMod (hin x2 (by simp)) hc,
      fastElem_eq_cppMod (hin x3 (by simp)) hc,
      cppMod_of_ne hc.ne', ih]

theorem unrollMod_none_of_len4 {c : Int} :
    ∀ input : List Int, input.length % 4 ≠ 0 → unrollMod input c = none
  | [], h => absurd rfl h
  | [_], _ => rfl
  | [_, _], _ => rfl
  | [_, _, _], _ => rfl
  | x0 :: x1 :: x2 :: x3 :: xs, h => by
    have ih := unrollMod_none_of_len4 (c := c) xs (by simp at h ⊢; omega)
    simp [unrollMod, ih]

theorem fastModHintUnroll_none_of_len4 {c : Int} :
    ∀ input : List Int, input.length % 4 ≠ 0 → fastModHintUnroll input c = none
  | [], h => absurd rfl h
  | [_], _ => rfl
  | [_, _], _ => rfl
  | [_, _, _], _ => rfl
  | x0 :: x1 :: x2 :: x3 :: xs, h => by
    have ih := fastModHintUnroll_none_of_len4 (c := c) xs (by simp at h ⊢; omega)
    simp [fastModHintUnroll, ih]

theorem unrollMod_some_len4 {c : Int} {input out : List Int}
    (h : unrollMod input c = some out) : input.length % 4 = 0 := by
  by_contra h4
  rw [unrollMod_none_of_len4 input h4] at h
  exact Option.noConfusion h

theorem fastModHintUnroll_some_len4 {c : Int} {input out : List Int}
    (h : fastModHintUnroll input c = some out) : input.length % 4 = 0 := by
  by_contra h4
  rw [fastModHintUnroll_none_of_len4 input h4] at h
  exact Option.noConfusion h

theorem mem_map_tmod_range {c : Int} (hc : 0 < c) {input : List Int}
    (hin : ∀ x ∈ input, 0 ≤ x) :
    ∀ y ∈ input.map (fun x => Int.tmod x c), 0 ≤ y ∧ y < c := by
  intro y hy
  obtain ⟨x, hx, rfl⟩ := List.mem_map.mp hy
  exact tmod_range (hin x hx) hc

theorem map_tmod_id {c : Int} :
    ∀ l : List Int, (∀ y ∈ l, 0 ≤ y ∧ y < c) →
      l.map (fun x => Int.tmod x c) = l
  | [], _ => rfl
  | x :: xs, h => by
    have hx := h x (by simp)
    simp [Int.tmod_eq_of_lt hx.1 hx.2,
      map_tmod_id xs (fun y hy => h y (by simp [hy]))]

theorem unrollAccesses_eq_range' :
    ∀ (k i N : Nat), N - i = 4 * k → unrollAccesses i N = List.range' i (N - i)
  | 0, i, N, h => by
    rw [unrollAccesses, if_neg (by omega), h]
    rfl
  | k + 1, i, N, h => by
    have hiN : i < N := by omega
    have ih := unrollAccesses_eq_range' k (i + 4) N (by omega)
    rw [unrollAccesses, if_pos hiN, ih,
      show N - (i + 4) = 4 * k from by omega,
      show N - i = 4 * k + 1 + 1 + 1 + 1 from by omega,
      List.range'_succ, List.range'_succ, List.range'_succ, List.range'_succ]

theorem unrollAccesses_len4 :
    ∀ (fuel i N : Nat), N - i ≤ 4 * fuel → (unrollAccesses i N).length % 4 = 0
  | 0, i, N, h => by
    rw [unrollAccesses, if_neg (by omega)]
    rfl
  | fuel + 1, i, N, h => by
    by_cases hiN : i < N
    · have ih := unrollAccesses_len4 fuel (i + 4) N (by omega)
      rw [unrollAccesses, if_pos hiN]
      simp only [List.length_cons]
      omega
    · rw [unrollAccesses, if_neg hiN]
      rfl

theorem baseModLoop_frame :
    ∀ (fuel i : Nat) (s t : KernelState), baseModLoop fuel i s = some t →
      t.input = s.input ∧ t.ceil = s.ceil
  | 0, _, _, _, h => by simp [baseModLoop] at h
  | fuel + 1, i, s, t, h => by
    rw [baseModLoop] at h
    split at h
    · cases hx : vecRead s.input i <;> rw [hx] at h <;> simp at h
      cases hy : cppMod _ s.ceil <;> rw [hy] at h <;> simp at h
      cases ho : vecWrite s.output i _ <;> rw [ho] at h <;> simp at h
      simpa using baseModLoop_frame fuel (i + 1) _ t h
    · simp at h
      subst h
      exact ⟨rfl, rfl⟩

theorem fastModLoop_frame :
    ∀ (fuel i : Nat) (s t : KernelState), fastModLoop fuel i s = some t →
      t.input = s.input ∧ t.ceil = s.ceil
  | 0, _, _, _, h => by simp [fastModLoop] at h
  | fuel + 1, i, s, t, h => by
    rw [fastModLoop] at h
    split at h
    · cases hx : vecRead s.input i <;> rw [hx] at h <;> simp at h
      cases hy : fastElem _ s.ceil <;> rw [hy] at h <;> simp at h
      cases ho : vecWrite s.output i _ <;> rw [ho] at h <;> simp at h
      simpa using fastModLoop_frame fuel (i + 1) _ t h
    · simp at h
      subst h
      exact ⟨rfl, rfl⟩

theorem fastModHintLoop_frame :
    ∀ (fuel i : Nat) (s t : KernelState), fastModHintLoop fuel i s = some t →
      t.input = s.input ∧ t.ceil = s.ceil
  | 0, _, _, _, h => by simp [fastModHintLoop] at h
  | fuel + 1, i, s, t, h => by
    rw [fastModHintLoop] at h
    split at h
    · cases hx : vecRead s.input i <;> rw [hx] at h <;> simp at h
      cases hy : fastHintElem _ s.ceil <;> rw [hy] at h <;> simp at h
      cases ho : vecWrite s.output i _ <;> rw [ho] at h <;> simp at h
      simpa using fastModHintLoop_frame fuel (i + 1) _ t h
    · simp at h
      subst h
      exact ⟨rfl, rfl⟩

theorem unrollModLoop_frame :
    ∀ (fuel i : Nat) (s t : KernelState), unrollModLoop fuel i s = some t →
      t.input = s.input ∧ t.ceil = s.ceil
  | 0, _, _, _, h => by simp [unrollModLoop] at h
  | fuel + 1, i, s, t, h => by
    rw [unrollModLoop] at h
    split at h
    · cases hx0 : vecRead s.input i <;> rw [hx0] at h <;> simp at h
      cases hy0 : cppMod _ s.ceil <;> rw [hy0] at h <;> simp at h
      cases ho0 : vecWrite s.output i _ <;> rw [ho0] at h <;> simp at h
      cases hx1 : vecRead s.input (i + 1) <;> rw [hx1] at h <;> simp at h
      cases hy1 : cppMod _ s.ceil <;> rw [hy1] at h <;> simp at h
      cases ho1 : vecWrite _ (i + 1) _ <;> rw [ho1] at h <;> simp at h
      cases hx2 : vecRead s.input (i + 2) <;> rw [hx2] at h <;> simp at h
      cases hy2 : cppMod _ s.ceil <;> rw [hy2] at h <;> simp at h
      cases ho2 : vecWrite _ (i + 2) _ <;> rw [ho2] at h <;> simp at h
      cases hx3 : vecRead s.input (i + 3) <;> rw [hx3] at h <;> simp at h
      cases hy3 : cppMod _ s.ceil <;> rw [hy3] at h <;> simp at h
      cases ho3 : vecWrite _ (i + 3) _ <;> rw [ho3] at h <;> simp at h
      simpa using unrollModLoop_frame fuel (i + 4) _ t h
    · simp at h
      subst h
      exact ⟨rfl, rfl⟩

theorem fastModHintUnrollLoop_frame :
    ∀ (fuel i : Nat) (s t : KernelState), fastModHintUnrollLoop fuel i s = some t →
      t.input = s.input ∧ t.ceil = s.ceil
  | 0, _, _, _, h => by simp [fastModHintUnrollLoop] at h
  | fuel + 1, i, s, t, h => by
    rw [fastModHintUnrollLoop] at h
    split at h
    · cases hx0 : vecRead s.input i <;> rw [hx0] at h <;> simp at h
      cases hy0 : fastHintElem _ s.ceil <;> rw [hy0] at h <;> simp at h
      cases ho0 : vecWrite s.output i _ <;> rw [ho0] at h <;> simp at h
      cases hx1 : vecRead s.input (i + 1) <;> rw [hx1] at h <;> simp at h
      cases hy1 : fastHintElem _ s.ceil <;> rw [hy1] at h <;> simp at h
      cases ho1 : vecWrite _ (i + 1) _ <;> rw [ho1] at h <;> simp at h
      cases hx2 : vecRead s.input (i + 2) <;> rw [hx2] at h <;> simp at h
      cases hy2 : fastHintElem _ s.ceil <;> rw [hy2] at h <;> simp at h
      cases ho2 : vecWrite _ (i + 2) _ <;> rw [ho2] at h <;> simp at h
      cases hx3 : vecRead s.input (i + 3) <;> rw [hx3] at h <;> simp at h
      cases hy3 : fastHintElem _ s.ceil <;> rw [hy3] at h <;> simp at h
      cases ho3 : vecWrite _ (i + 3) _ <;> rw [ho3] at h <;> simp at h
      simpa using fastModHintUnrollLoop_frame fuel (i + 4) _ t h
    · simp at h
      subst h
      exact ⟨rfl, rfl⟩

theorem fastHintElem_some_of_lt {x c y : Int} (hxc : x < c)
    (h : fastHintElem x c = some y) : y = x :=
  fastElem_some_of_lt hxc (by rwa [fastHintElem_eq_fastElem] at h)

theorem fastMod_some_spec {c : Int} :
    ∀ (input out : List Int), fastMod input c = some out →
      out.length = input.length ∧
        ∀ i, input.getD i 0 < c → out.getD i 0 = input.getD i 0
  | [], out, h => by
    simp [fastMod] at h
    subst h
    exact ⟨rfl, fun i _ => rfl⟩
  | x :: xs, out, h => by
    rw [fastMod] at h
    cases hy : fastElem x c <;> rw [hy] at h <;> simp at h
    cases hys : fastMod xs c <;> rw [hys] at h <;> simp at h
    subst h
    obtain ⟨hlen, hidx⟩ := fastMod_some_spec xs _ hys
    refine ⟨by simp [hlen], ?_⟩
    intro i hi
    rcases i with _ | n
    · simpa using fastElem_some_of_lt (by simpa using hi) hy
    · simpa using hidx n (by simpa using hi)

theorem fastModHintUnroll_some_spec {c : Int} :
    ∀ (input out : List Int), fastModHintUnroll input c = some out →
      out.length = input.length ∧
        ∀ i, input.getD i 0 < c → out.getD i 0 = input.getD i 0
  | [], out, h => by
    simp [fastModHintUnroll] at h
    subst h
    exact ⟨rfl, fun i _ => rfl⟩
  | [_], out, h => by simp [fastModHintUnroll] at h
  | [_, _], out, h => by simp [fastModHintUnroll] at h
  | [_, _, _], out, h => by simp [fastModHintUnroll] at h
  | x0 :: x1 :: x2 :: x3 :: xs, out, h => by
    rw [fastModHintUnroll] at h
    cases hy0 : fastHintElem x0 c <;> rw [hy0] at h <;> simp at h
    cases hy1 : fastHintElem x1 c <;> rw [hy1] at h <;> simp at h
    cases hy2 : fastHintElem x2 c <;> rw [hy2] at h <;> simp at h
    cases hy3 : fastHintElem x3 c <;> rw [hy3] at h <;> simp at h
    cases hys : fastModHintUnroll xs c <;> rw [hys] at h <;> simp at h
    subst h
    obtain ⟨hlen, hidx⟩ := fastModHintUnroll_some_spec xs _ hys
    refine ⟨by simp [hlen], ?_⟩
    intro i hi
    rcases i with _ | _ | _ | _ | n
    · simpa using fastHintElem_some_of_lt (by simpa using hi) hy0
    · simpa using fastHintElem_some_of_lt (by simpa using hi) hy1
    · simpa using fastHintElem_some_of_lt (by simpa using hi) hy2
    · simpa using fastHintElem_some_of_lt (by simpa using hi) hy3
    · simpa using hidx n (by simpa using hi)

/-! ### Fixed points: a list already reduced below the ceiling is left
unchanged by every kernel. -/

theorem baseMod_fix {c : Int} (hc : 0 < c) {l : List Int}
    (hl : ∀ y ∈ l, 0 ≤ y ∧ y < c) : baseMod l c = some l := by
  rw [baseMod_of_ne hc.ne' l, map_tmod_id l hl]

theorem fastMod_fix {c : Int} (hc : 0 < c) {l : List Int}
    (hl : ∀ y ∈ l, 0 ≤ y ∧ y < c) : fastMod l c = some l := by
  rw [fastMod_map hc l (fun y hy => (hl y hy).1), map_tmod_id l hl]

theorem fastModHint_fix {c : Int} (hc : 0 < c) {l : List Int}
    (hl : ∀ y ∈ l, 0 ≤ y ∧ y < c) : fastModHint l c = some l := by
  rw [fastModHint_eq_fastMod]
  exact fastMod_fix hc hl

theorem unrollMod_fix {c : Int} (hc : 0 < c) {l : List Int}
    (hl : ∀ y ∈ l, 0 ≤ y ∧ y < c) (h4 : l.length % 4 = 0) :
    unrollMod l c = some l := by
  rw [unrollMod_map hc.ne' l h4, map_tmod_id l hl]

theorem fastModHintUnroll_fix {c : Int} (hc : 0 < c) {l : List Int}
    (hl : ∀ y ∈ l, 0 ≤ y ∧ y < c) (h4 : l.length % 4 = 0) :
    fastModHintUnroll l c = some l := by
  rw [fastModHintUnroll_map hc l (fun y hy => (hl y hy).1) h4, map_tmod_id l hl]

/-! ### Claim theorems -/

/-- C1: for every input sequence of integers in [0, 255] and every positive
ceiling C, with N a multiple of 4 (as the unrolled variants require), the
five strategy kernels baseMod, unrollMod, fastMod, fastModHint and
fastModHintUnroll produce identical output sequences. -/
theorem strategy_variants_agree (input : List Int) (c : Int)
    (hin : ∀ x ∈ input, 0 ≤ x ∧ x ≤ 255) (hc : 0 < c)
    (h4 : input.length % 4 = 0) :
    unrollMod input c = baseMod input c ∧
      fastMod input c = baseMod input c ∧
      fastModHint input c = baseMod input c ∧
      fastModHintUnroll input c = baseMod input c := by
  have hin' : ∀ x ∈ input, 0 ≤ x := fun x hx => (hin x hx).1
  rw [baseMod_of_ne hc.ne' input, unrollMod_map hc.ne' input h4,
    fastMod_map hc input hin', fastModHint_eq_fastMod input c,
    fastMod_map hc input hin', fastModHintUnroll_map hc input hin' h4]
  exact ⟨rfl, rfl, rfl, rfl⟩

/-- C1 witness: the five kernels agree on [5, 40, 7, 200] with C = 32. -/
theorem strategy_variants_agree_witness :
    unrollMod [5, 40, 7, 200] 32 = baseMod [5, 40, 7, 200] 32 ∧
      fastMod [5, 40, 7, 200] 32 = baseMod [5, 40, 7, 200] 32 ∧
      fastModHint [5, 40, 7, 200] 32 = baseMod [5, 40, 7, 200] 32 ∧
      fastModHintUnroll [5, 40, 7, 200] 32 = baseMod [5, 40, 7, 200] 32 :=
  strategy_variants_agree [5, 40, 7, 200] 32 (by decide) (by decide) (by decide)

/-- C2 counterexample: the claim quantifies over every kernel variant with
no alignment precondition, but the unrolled variant applied to the length-1
input [0] with ceiling 1 runs off the end of the array (undefined
behaviour, modelled `none`) and produces no output sequence at all. -/
theorem kernel_contract_counterexample : unrollMod [0] 1 = none := by decide

/-- C2 amended: for every input sequence of length N with elements in
[0, 255], every positive ceiling C, and N a multiple of 4 (required by the
unrolled variants), every kernel variant produces the same output sequence
of length N with output[i] = input[i] mod C at every index i. -/
theorem kernel_contract (input : List Int) (c : Int)
    (hin : ∀ x ∈ input, 0 ≤ x ∧ x ≤ 255) (hc : 0 < c)
    (h4 : input.length % 4 = 0) :
    ∃ out : List Int,
      baseMod input c = some out ∧ unrollMod input c = some out ∧
        fastMod input c = some out ∧ fastModHint input c = some out ∧
        fastModHintUnroll input c = some out ∧ out.length = input.length ∧
        ∀ i, i < input.length → out.getD i 0 = (input.getD i 0) % c := by
  have hin' : ∀ x ∈ input, 0 ≤ x := fun x hx => (hin x hx).1
  refine ⟨input.map (fun x => Int.tmod x c), baseMod_of_ne hc.ne' input,
    unrollMod_map hc.ne' input h4, fastMod_map hc input hin',
    by rw [fastModHint_eq_fastMod]; exact fastMod_map hc input hin',
    fastModHintUnroll_map hc input hin' h4, by simp, ?_⟩
  intro i hi
  have hx : 0 ≤ input.getD i 0 :=
    hin' _ (List.getD_eq_getElem input 0 hi ▸ List.getElem_mem hi)
  have hmap : (input.map (fun x => Int.tmod x c)).getD i 0
      = Int.tmod (input.getD i 0) c := by
    rw [List.getD_eq_getElem _ 0 (by simpa using hi),
      List.getD_eq_getElem _ 0 hi, List.getElem_map]
  rw [hmap, Int.tmod_eq_emod hx hc.le]

/-- C2 witness: the amended contract at input [5, 40, 7, 200], C = 32. -/
theorem kernel_contract_witness :
    ∃ out : List Int,
      baseMod [5, 40, 7, 200] 32 = some out ∧
        unrollMod [5, 40, 7, 200] 32 = some out ∧
        fastMod [5, 40, 7, 200] 32 = some out ∧
        fastModHint [5, 40, 7, 200] 32 = some out ∧
        fastModHintUnroll [5, 40, 7, 200] 32 = some out ∧
        out.length = ([5, 40, 7, 200] : List Int).length ∧
        ∀ i, i < ([5, 40, 7, 200] : List Int).length →
          out.getD i 0 = (([5, 40, 7, 200] : List Int).getD i 0) % 32 :=
  kernel_contract [5, 40, 7, 200] 32 (by decide) (by decide) (by decide)

/-- C3: for every input sequence with elements in [0, 255] and every
positive ceiling C, every element of the output sequence of every strategy
variant satisfies 0 <= output[i] < C. -/
theorem output_range_invariant (input : List Int) (c : Int)
    (hin : ∀ x ∈ input, 0 ≤ x ∧ x ≤ 255) (hc : 0 < c) :
    (∀ out, baseMod input c = some out → ∀ y ∈ out, 0 ≤ y ∧ y < c) ∧
      (∀ out, unrollMod input c = some out → ∀ y ∈ out, 0 ≤ y ∧ y < c) ∧
      (∀ out, fastMod input c = some out → ∀ y ∈ out, 0 ≤ y ∧ y < c) ∧
      (∀ out, fastModHint input c = some out → ∀ y ∈ out, 0 ≤ y ∧ y < c) ∧
      (∀ out, fastModHintUnroll input c = some out →
        ∀ y ∈ out, 0 ≤ y ∧ y < c) := by
  have hin' : ∀ x ∈ input, 0 ≤ x := fun x hx => (hin x hx).1
  have hr := mem_map_tmod_range hc hin'
  refine ⟨fun out hout => ?_, fun out hout => ?_, fun out hout => ?_,
    fun out hout => ?_, fun out hout => ?_⟩
  · rw [baseMod_of_ne hc.ne' input] at hout
    exact Option.some_inj.mp hout ▸ hr
  · rw [unrollMod_map hc.ne' input (unrollMod_some_len4 hout)] at hout
    exact Option.some_inj.mp hout ▸ hr
  · rw [fastMod_map hc input hin'] at hout
    exact Option.some_inj.mp hout ▸ hr
  · rw [fastModHint_eq_fastMod, fastMod_map hc input hin'] at hout
    exact Option.some_inj.mp hout ▸ hr
  · rw [fastModHintUnroll_map hc input hin'
      (fastModHintUnroll_some_len4 hout)] at hout
    exact Option.some_inj.mp hout ▸ hr

/-- C3 witness: on input [5, 40, 7, 200] with C = 32, baseMod outputs
[5, 8, 7, 8], and its element 8 satisfies 0 <= 8 < 32. -/
theorem output_range_invariant_witness : (0 : Int) ≤ 8 ∧ (8 : Int) < 32 :=
  (output_range_invariant [5, 40, 7, 200] 32 (by decide) (by decide)).1
    [5, 8, 7, 8] (by decide) 8 (by decide)

/-- C4: for every input sequence and positive ceiling C, whenever a guarded
kernel (fastMod, fastModHint, fastModHintUnroll) produces an output, every
index i with input[i] < C has output[i] = input[i]: the fast path skips the
division without changing the result. -/
theorem fastpath_identity (input : List Int) (c : Int) (_hc : 0 < c) :
    (∀ out, fastMod input c = some out →
        ∀ i, input.getD i 0 < c → out.getD i 0 = input.getD i 0) ∧
      (∀ out, fastModHint input c = some out →
        ∀ i, input.getD i 0 < c → out.getD i 0 = input.getD i 0) ∧
      (∀ out, fastModHintUnroll input c = some out →
        ∀ i, input.getD i 0 < c → out.getD i 0 = input.getD i 0) :=
  ⟨fun out hout => (fastMod_some_spec input out hout).2,
    fun out hout => (fastMod_some_spec input out
      (fastModHint_eq_fastMod input c ▸ hout)).2,
    fun out hout => (fastModHintUnroll_some_spec input out hout).2⟩

/-- C4 witness: on input [5, 40, 7, 200] with C = 32, fastMod outputs
[5, 8, 7, 8]; at index 0 the input 5 is below the ceiling and the output
equals it. -/
theorem fastpath_identity_witness :
    ([5, 8, 7, 8] : List Int).getD 0 0 = ([5, 40, 7, 200] : List Int).getD 0 0 :=
  (fastpath_identity [5, 40, 7, 200] 32 (by decide)).1
    [5, 8, 7, 8] (by decide) 0 (by decide)

/-- C5: applying any kernel variant with ceiling C to its own output (whose
elements are all already below C) returns that output unchanged, for every
input sequence with elements in [0, 255] and every positive ceiling C. -/
theorem kernel_idempotent (input : List Int) (c : Int)
    (hin : ∀ x ∈ input, 0 ≤ x ∧ x ≤ 255) (hc : 0 < c) :
    (∀ out, baseMod input c = some out → baseMod out c = some out) ∧
      (∀ out, unrollMod input c = some out → unrollMod out c = some out) ∧
      (∀ out, fastMod input c = some out → fastMod out c = some out) ∧
      (∀ out, fastModHint input c = some out → fastModHint out c = some out) ∧
      (∀ out, fastModHintUnroll input c = some out →
        fastModHintUnroll out c = some out) := by
  have hin' : ∀ x ∈ input, 0 ≤ x := fun x hx => (hin x hx).1
  have hr := mem_map_tmod_range hc hin'
  refine ⟨fun out hout => ?_, fun out hout => ?_, fun out hout => ?_,
    fun out hout => ?_, fun out hout => ?_⟩
  · rw [baseMod_of_ne hc.ne' input] at hout
    obtain rfl := Option.some_inj.mp hout
    exact baseMod_fix hc hr
  · have h4 := unrollMod_some_len4 hout
    rw [unrollMod_map hc.ne' input h4] at hout
    obtain rfl := Option.some_inj.mp hout
    exact unrollMod_fix hc hr (by simpa using h4)
  · rw [fastMod_map hc input hin'] at hout
    obtain rfl := Option.some_inj.mp hout
    exact fastMod_fix hc hr
  · rw [fastModHint_eq_fastMod, fastMod_map hc input hin'] at hout
    obtain rfl := Option.some_inj.mp hout
    exact fastModHint_fix hc hr
  · have h4 := fastModHintUnroll_some_len4 hout
    rw [fastModHintUnroll_map hc input hin' h4] at hout
    obtain rfl := Option.some_inj.mp hout
    exact fastModHintUnroll_fix hc hr (by simpa using h4)

/-- C5 witness: baseMod applied to its own output [5, 8, 7, 8] (from input
[5, 40, 7, 200] with C = 32) leaves it unchanged. -/
theorem kernel_idempotent_witness :
    baseMod [5, 8, 7, 8] 32 = some [5, 8, 7, 8] :=
  (kernel_idempotent [5, 40, 7, 200] 32 (by decide) (by decide)).1
    [5, 8, 7, 8] (by decide)

/-- C6: on the concrete input [5, 40, 7, 200] with ceiling C = 32, all
five strategy variants produce the output [5, 8, 7, 8]. -/
theorem scenario_all_variants :
    baseMod [5, 40, 7, 200] 32 = some [5, 8, 7, 8] ∧
      unrollMod [5, 40, 7, 200] 32 = some [5, 8, 7, 8] ∧
      fastMod [5, 40, 7, 200] 32 = some [5, 8, 7, 8] ∧
      fastModHint [5, 40, 7, 200] 32 = some [5, 8, 7, 8] ∧
      fastModHintUnroll [5, 40, 7, 200] 32 = some [5, 8, 7, 8] := by decide

/-- C7 counterexample: baseMod invoked with the non-positive ceiling -3 does
not fail fast: no assertion or rejection exists, and it silently produces
the output [2] (the truncated remainder of 5 by -3). -/
theorem precondition_failfast_counterexample :
    baseMod [5] (-3) = some [2] := by decide

/-- C7 amended: the kernels contain no assertion or explicit rejection.  A
zero ceiling makes the modulo undefined behaviour and an unrolled variant
with N not a multiple of 4 indexes out of bounds (both modelled as the
absence of a result, `none`); but any non-zero ceiling, including negative
ones, is silently accepted by baseMod, which then always produces output. -/
theorem precondition_behavior (input : List Int) (c : Int) :
    (input ≠ [] → baseMod input 0 = none) ∧
      (input.length % 4 ≠ 0 → unrollMod input c = none) ∧
      (input.length % 4 ≠ 0 → fastModHintUnroll input c = none) ∧
      (c ≠ 0 → ∃ out, baseMod input c = some out) := by
  refine ⟨fun hne => ?_, fun h4 => unrollMod_none_of_len4 input h4,
    fun h4 => fastModHintUnroll_none_of_len4 input h4,
    fun hc => ⟨_, baseMod_of_ne hc input⟩⟩
  match input, hne with
  | x :: xs, _ => simp [baseMod, cppMod]

/-- C7 witness: baseMod rejects nothing by assertion, but with ceiling 0 on
[7] there is no defined result; unrolled variants on the length-1 input [7]
have no defined result; baseMod with ceiling 5 produces output. -/
theorem precondition_behavior_witness :
    baseMod [7] 0 = none ∧ unrollMod [7] 5 = none ∧
      fastModHintUnroll [7] 5 = none ∧ ∃ out, baseMod [7] 5 = some out :=
  ⟨(precondition_behavior [7] 0).1 (by decide),
    (precondition_behavior [7] 5).2.1 (by decide),
    (precondition_behavior [7] 5).2.2.1 (by decide),
    (precondition_behavior [7] 5).2.2.2 (by decide)⟩

/-- C8: the unrolled loops touch exactly the indices 0 .. N-1, each exactly
once and in order, precisely when N is a multiple of the unroll factor 4:
the access trace from loop counter 0 equals [0, 1, ..., N-1] if and only if
N % 4 = 0. -/
theorem unroll_index_coverage (N : Nat) :
    unrollAccesses 0 N = List.range N ↔ N % 4 = 0 := by
  constructor
  · intro h
    have hlen : (unrollAccesses 0 N).length % 4 = 0 :=
      unrollAccesses_len4 N 0 N (by omega)
    rw [h, List.length_range] at hlen
    exact hlen
  · intro h
    have he := unrollAccesses_eq_range' (N / 4) 0 N (by omega)
    rw [he, Nat.sub_zero, List.range_eq_range']

/-- C9: the benchmark argument generator custom_args produces exactly the
twelve pairs (N, C) with N in {16, 64, 256, 1024} and C in {32, 128, 224},
and each of the five registered variants is invoked with exactly these
pairs. -/
theorem benchmark_grid :
    custom_args = [(16, 32), (16, 128), (16, 224), (64, 32), (64, 128),
        (64, 224), (256, 32), (256, 128), (256, 224), (1024, 32),
        (1024, 128), (1024, 224)] ∧
      ∀ r ∈ registrations, r.2.2 = custom_args := by
  refine ⟨by decide, ?_⟩
  intro r hr
  simp only [registrations, List.mem_cons, List.not_mem_nil, or_false] at hr
  rcases hr with rfl | rfl | rfl | rfl | rfl <;> rfl

/-- C9 witness: the first registered benchmark, baseMod, is invoked with
the custom_args pairs. -/
theorem benchmark_grid_witness :
    (("baseMod", baseMod, custom_args) :
      String × (List Int → Int → Option (List Int)) × List (Nat × Nat)).2.2
      = custom_args :=
  benchmark_grid.2 _ (List.mem_cons_self _ _)

/-- C10: every kernel loop writes only the output vector: whenever a pass
of any of the five variants completes from any loop counter and state, the
input vector and the ceiling of the resulting state are unchanged. -/
theorem kernel_loops_frame (fuel i : Nat) (s t : KernelState) :
    (baseModLoop fuel i s = some t → t.input = s.input ∧ t.ceil = s.ceil) ∧
      (unrollModLoop fuel i s = some t →
        t.input = s.input ∧ t.ceil = s.ceil) ∧
      (fastModLoop fuel i s = some t → t.input = s.input ∧ t.ceil = s.ceil) ∧
      (fastModHintLoop fuel i s = some t →
        t.input = s.input ∧ t.ceil = s.ceil) ∧
      (fastModHintUnrollLoop fuel i s = some t →
        t.input = s.input ∧ t.ceil = s.ceil) :=
  ⟨baseModLoop_frame fuel i s t, unrollModLoop_frame fuel i s t,
    fastModLoop_frame fuel i s t, fastModHintLoop_frame fuel i s t,
    fastModHintUnrollLoop_frame fuel i s t⟩

/-- C10 witness: running the baseMod loop on input [5, 40] with ceiling 32
yields a state whose input and ceiling are those it started with. -/
theorem kernel_loops_frame_witness :
    (KernelState.mk [5, 40] 32 [5, 8]).input
        = (KernelState.mk [5, 40] 32 [0, 0]).input ∧
      (KernelState.mk [5, 40] 32 [5, 8]).ceil
        = (KernelState.mk [5, 40] 32 [0, 0]).ceil :=
  (kernel_loops_frame 3 0 (KernelState.mk [5, 40] 32 [0, 0])
    (KernelState.mk [5, 40] 32 [5, 8])).1 (by decide)

end FastMod
